import Mathlib

/-!
Verification of the `bookstack-markdown-export` transformation pipeline
(`main.py`).  Page text is modelled as `List Char`; the two regular
expressions of the program are modelled by a small backtracking matcher
whose candidate results are produced in Python's backtracking priority
order, so that the first element of the result list is Python's match.
-/

set_option maxRecDepth 10000

abbrev Text := List Char

/-- `extractT t a b` is the slice `t[a:b]` for `0 ≤ a ≤ b` (clamped at the
ends like a Python slice with non-negative indices). -/
def extractT (t : Text) (a b : Nat) : Text :=
  (t.drop a).take (b - a)

/-- Length of the maximal run of characters satisfying `f` at the front. -/
def countRun (f : Char → Bool) : List Char → Nat
  | [] => 0
  | c :: r => if f c then countRun f r + 1 else 0

/-- Python `\w` on ASCII input: letters, digits and underscore. -/
def isWordChar (c : Char) : Bool := c.isAlphanum || c = '_'

/-- The `.` metacharacter: any character but a newline. -/
def isDotChar (c : Char) : Bool := c ≠ '\n'

/-- `[^/]`: any character but a slash. -/
def isNotSlash (c : Char) : Bool := c ≠ '/'

/-- A matcher state: current position, the remaining text from that
position, and the list of recorded group boundary marks (most recent
first).  The suffix component always equals `t.drop pos` for the subject
text `t`; carrying it makes the matcher run in linear steps. -/
abbrev MState := Nat × Text × List Nat

/-- A pattern fragment: a state to the list of successor states in
backtracking priority order. -/
abbrev Pat := MState → List MState

/-- Match one literal character. -/
def litP (c : Char) : Pat := fun st =>
  match st.2.1 with
  | d :: rest => if d = c then [(st.1 + 1, rest, st.2.2)] else []
  | [] => []

/-- Match one character of a class. -/
def clsP (f : Char → Bool) : Pat := fun st =>
  match st.2.1 with
  | d :: rest => if f d then [(st.1 + 1, rest, st.2.2)] else []
  | [] => []

/-- Sequencing; `List.flatMap` keeps backtracking priority order. -/
def seqP (p q : Pat) : Pat := fun st => (p st).flatMap q

/-- Match a literal string. -/
def strP : List Char → Pat
  | [] => fun st => [st]
  | c :: r => seqP (litP c) (strP r)

/-- Record the current position as a group boundary. -/
def markP : Pat := fun st => [(st.1, st.2.1, st.1 :: st.2.2)]

/-- All states reachable by consuming a (possibly empty) run of
characters of the class `f`, shortest first. -/
def starStates (f : Char → Bool) : Nat → Text → List Nat → List MState
  | pos, [], ms => [(pos, [], ms)]
  | pos, c :: rest, ms =>
    (pos, c :: rest, ms) ::
      (if f c then starStates f (pos + 1) rest ms else [])

/-- Lazy star over a character class (`f*?`): shortest first. -/
def lazyStarP (f : Char → Bool) : Pat := fun st =>
  starStates f st.1 st.2.1 st.2.2

/-- Lazy plus over a character class (`f+?`): shortest non-empty first. -/
def lazyPlusP (f : Char → Bool) : Pat := fun st =>
  match st.2.1 with
  | c :: rest => if f c then starStates f (st.1 + 1) rest st.2.2 else []
  | [] => []

/-- Greedy plus over a character class (`f+`): longest non-empty first. -/
def greedyPlusP (f : Char → Bool) : Pat := fun st =>
  (lazyPlusP f st).reverse

/-- The base URL substituted verbatim into a template: each character is a
regex literal except `.`, which is the any-but-newline metacharacter.
This models `re.compile(TEMPLATE.replace("__BASE_URL__", base))` for base
URLs whose characters are regex-literal or dots. -/
def urlP : List Char → Pat
  | [] => fun st => [st]
  | c :: r => seqP (if c = '.' then clsP isDotChar else litP c) (urlP r)

/-- The compiled image pattern
`\[\!\[.+\]\(B/uploads/.*?\.\w{3}\)\]\((B/uploads/.*?/([^/]*?\.\w{3}))\)`
(main.py line 21, after `__BASE_URL__` substitution).  Marks pushed:
group-1 start, group-2 start, common group end. -/
def imagePat (b : List Char) : Pat :=
  seqP (strP ['[', '!', '['])
  (seqP (greedyPlusP isDotChar)
  (seqP (strP [']', '('])
  (seqP (urlP b)
  (seqP (strP "/uploads/".toList)
  (seqP (lazyStarP isDotChar)
  (seqP (litP '.')
  (seqP (clsP isWordChar)
  (seqP (clsP isWordChar)
  (seqP (clsP isWordChar)
  (seqP (strP [')', ']', '('])
  (seqP markP
  (seqP (urlP b)
  (seqP (strP "/uploads/".toList)
  (seqP (lazyStarP isDotChar)
  (seqP (litP '/')
  (seqP markP
  (seqP (lazyStarP isNotSlash)
  (seqP (litP '.')
  (seqP (clsP isWordChar)
  (seqP (clsP isWordChar)
  (seqP (clsP isWordChar)
  (seqP markP
  (litP ')')))))))))))))))))))))))

/-- The compiled internal-link pattern `B/books/(.+?)/page/(.+?)\)`
(main.py line 23, after `__BASE_URL__` substitution).  Marks pushed:
group-1 start, group-1 end, group-2 start, group-2 end. -/
def internalPat (b : List Char) : Pat :=
  seqP (urlP b)
  (seqP (strP "/books/".toList)
  (seqP markP
  (seqP (lazyPlusP isDotChar)
  (seqP markP
  (seqP (strP "/page/".toList)
  (seqP markP
  (seqP (lazyPlusP isDotChar)
  (seqP markP
  (litP ')')))))))))

/-- Python's match at a fixed position: the first success in backtracking
priority order. -/
def matchAt (p : Pat) (t : Text) (i : Nat) : Option MState :=
  (p (i, t.drop i, [])).head?

/-- A regex match: span `[start, stop)` plus the recorded marks. -/
structure RMatch where
  start : Nat
  stop : Nat
  marks : List Nat
  deriving DecidableEq, Repr

/-- The scan loop of `finditer`: try each position from left to right,
resuming after the end of each (non-overlapping) match; `suf` is the text
remaining from position `pos`. -/
def scanIter (p : Pat) : Nat → Nat → Text → List RMatch
  | 0, _, _ => []
  | fuel + 1, pos, suf =>
    match (p (pos, suf, [])).head? with
    | some (stop, suf2, ms) =>
      ⟨pos, stop, ms⟩ ::
        (if pos < stop then scanIter p fuel stop suf2
         else
           match suf with
           | [] => []
           | _ :: rest => scanIter p fuel (pos + 1) rest)
    | none =>
      match suf with
      | [] => []
      | _ :: rest => scanIter p fuel (pos + 1) rest

/-- `re.finditer`: all non-overlapping matches, left to right. -/
def finditer (p : Pat) (t : Text) : List RMatch :=
  scanIter p (t.length + 1) 0 t

/-! ### Heading normalization (`header_re`, `header_text`,
`get_top_level_header` and the rewrite loop of `export_doc`) -/

/-- `LOWEST_HEADER_LEVEL = 8` (main.py line 18). -/
def LOWEST_HEADER_LEVEL : Nat := 8

/-- `header_text(level)`: `level` hash marks followed by a space
(main.py line 33). -/
def headerTextL (level : Nat) : List Char :=
  List.replicate level '#' ++ [' ']

/-- A line matches `header_re(level)` (the `^#…# ` multiline pattern,
main.py line 29) iff `headerTextL level` is a prefix of the line. -/
def matchesHeader (level : Nat) (l : List Char) : Bool :=
  (headerTextL level).isPrefixOf l

/-- The heading level of a line: the count of leading `#` characters when
that run is non-empty and followed by a space, else `none`. -/
def lineLevelB (l : List Char) : Option Nat :=
  let c := countRun (fun d => d = '#') l
  if 1 ≤ c ∧ l.get? c = some ' ' then some c else none

/-- `get_top_level_header` (main.py lines 37-42): the first level in
`1..7` for which some line matches `header_re(level)`. -/
def getTopLevelHeader (lines : List (List Char)) : Option Nat :=
  (List.range' 1 (LOWEST_HEADER_LEVEL - 1)).find?
    (fun level => lines.any (matchesHeader level))

/-- One `re.sub` of a replacement pair on one line: replace the
`headerTextL x` prefix by `r` (main.py line 76, per line). -/
def substLine (x : Nat) (r : List Char) (l : List Char) : List Char :=
  if matchesHeader x l then r ++ l.drop (x + 1) else l

/-- The sequential per-level substitution loop of main.py lines 73-76:
for each level `x` from `t` to 7 in ascending order, substitute
`header_text(x - t + 1)` for `header_re(x)` on every line. -/
def seqRewrite (t : Nat) (lines : List (List Char)) : List (List Char) :=
  (List.range' t (LOWEST_HEADER_LEVEL - t)).foldl
    (fun ls x => ls.map (substLine x (headerTextL (x - t + 1)))) lines

/-- The level map `L ↦ L - t + 1` applied to levels `t..7` only. -/
def shiftLevel (t L : Nat) : Nat :=
  if t ≤ L ∧ L ≤ 7 then L - t + 1 else L

/-- Modelled from the spec (refinement side of the one-pass claim):
"computing the mapping L ↦ L - t + 1 for every level L from t to 7 over
the original text's line boundaries and applying all substitutions in one
pass". -/
def onePassRewrite (t : Nat) (lines : List (List Char)) : List (List Char) :=
  lines.map (fun l =>
    match lineLevelB l with
    | some L => if t ≤ L ∧ L ≤ 7 then headerTextL (shiftLevel t L) ++ l.drop (L + 1) else l
    | none => l)

/-- The heading detect-plus-rewrite step of `export_doc`
(main.py lines 70-76), on lines. -/
def normalizeLines (lines : List (List Char)) : List (List Char) :=
  match getTopLevelHeader lines with
  | none => lines
  | some t => if t = 1 then lines else seqRewrite t lines

/-- Split a text on `'\n'`; always non-empty, pieces newline-free. -/
def splitLines : Text → List (List Char)
  | [] => [[]]
  | c :: r =>
    if c = '\n' then [] :: splitLines r
    else
      match splitLines r with
      | h :: ts => (c :: h) :: ts
      | [] => [[c]]

/-- Join lines with `'\n'`. -/
def joinLines (ls : List (List Char)) : Text :=
  match ls with
  | [] => []
  | [l] => l
  | l :: r => l ++ '\n' :: joinLines r

/-- The heading detect-plus-rewrite step on the page text.  Faithful to the
multiline-anchored `re.sub` calls: the patterns are line-anchored and the
replacements contain no newline, so the whole step acts line by line. -/
def normalizeText (t : Text) : Text :=
  joinLines (normalizeLines (splitLines t))

/-- Minimum heading level over all heading lines (any depth). -/
def minLevel : List (List Char) → Option Nat
  | [] => none
  | l :: r =>
    match lineLevelB l, minLevel r with
    | some k, some a => some (min k a)
    | some k, none => some k
    | none, a => a

/-! ### The image-inlining text rewrite (main.py lines 53-67) -/

/-- Group 2 of an image match — the filename — extracted from the
original text. -/
def filenameOf (t : Text) (m : RMatch) : Text :=
  match m.marks with
  | [e, g2s, _g1s] => extractT t g2s e
  | _ => []

/-- Group 1 of an image match — the full-size image URL. -/
def imageUrlOf (t : Text) (m : RMatch) : Text :=
  match m.marks with
  | [e, _g2s, g1s] => extractT t g1s e
  | _ => []

/-- The replacement text `![](filename)` (main.py line 67), with the
filename taken from the match's groups over the original text. -/
def embedOf (t0 : Text) (m : RMatch) : Text :=
  "![](".toList ++ filenameOf t0 m ++ [')']

/-- The splice of main.py line 67:
`md[: match.start()] + "![](filename)" + md[match.end() + 1 :]` —
note the `+ 1`, which also removes the character after the match. -/
def spliceOne (t0 : Text) (cur : Text) (m : RMatch) : Text :=
  cur.take m.start ++ embedOf t0 m ++ cur.drop (m.stop + 1)

/-- All image matches of a page (`tuple(image_link_regex.finditer(md))`). -/
def imageMatches (b : List Char) (t : Text) : List RMatch :=
  finditer (imagePat b) t

/-- The full image-reference rewrite of main.py lines 53-67: splice each
match, rightmost first, group data taken from the original text. -/
def imageRewrite (b : List Char) (t : Text) : Text :=
  ((imageMatches b t).reverse).foldl (spliceOne t) t

/-- Simultaneous replacement of the spans `[start, stop + 1)` (the match
plus the one following character), built by copying unmatched gaps and
inserting the replacements in ascending order. -/
def simReplaceExt (t0 : Text) : Nat → List RMatch → Text
  | c, [] => t0.drop c
  | c, m :: ms => extractT t0 c m.start ++ embedOf t0 m ++ simReplaceExt t0 (m.stop + 1) ms

/-- Modelled from the spec (the claim's reading): simultaneous replacement
of exactly the matched spans `[start, stop)`, no more and no less. -/
def simReplaceExact (t0 : Text) : Nat → List RMatch → Text
  | c, [] => t0.drop c
  | c, m :: ms => extractT t0 c m.start ++ embedOf t0 m ++ simReplaceExact t0 m.stop ms

/-- Spans are in bounds, ascending, and pairwise separated by at least one
character (so the extended spans `[start, stop + 1)` are disjoint and lie
inside the text). -/
def spansSepOK (len : Nat) : Nat → List RMatch → Bool
  | _, [] => true
  | c, m :: ms =>
    c ≤ m.start && m.start ≤ m.stop && m.stop + 1 ≤ len && spansSepOK len (m.stop + 1) ms

/-! ### Internal-link detection (main.py lines 82-94) -/

/-- A Python slice `t[a:b]` with possibly negative `a`, `b`: a negative
index has the length of the text added once, then clamps at 0; the result
is the elements from the resolved start (inclusive) to the resolved end
(exclusive). -/
def pySlice (t : Text) (a b : Int) : Text :=
  let resolve : Int → Nat := fun i =>
    if i < 0 then (i + t.length).toNat else min i.toNat t.length
  extractT t (resolve a) (resolve b)

/-- Python `str.splitlines` restricted to `'\n'` newlines: like
`splitLines` but an empty final piece produced by a trailing newline (or
by emptiness) is dropped. -/
def pySplitlines (t : Text) : List (List Char) :=
  let ps := splitLines t
  if ps.getLast? = some [] then ps.dropLast else ps

/-- The context snippet of main.py line 92:
`md[internal_link.start() - 60 : internal_link.start()]`. -/
def snippetOf (t : Text) (m : RMatch) : Text :=
  pySlice t ((m.start : Int) - 60) (m.start : Int)

/-- The indented context lines printed by main.py lines 93-94. -/
def contextLinesOf (t : Text) (m : RMatch) : List (List Char) :=
  (pySplitlines (snippetOf t m)).map (fun l => "    ".toList ++ l)

/-- One emitted internal-link notice: book slug, page slug and the
indented context lines. -/
structure LinkNotice where
  bookSlug : Text
  pageSlug : Text
  context : List (List Char)
  deriving DecidableEq, Repr

/-- Group extraction for an internal-link match. -/
def linkGroupsOf (t : Text) (m : RMatch) : Text × Text :=
  match m.marks with
  | [g2e, g2s, g1e, g1s] => (extractT t g1s g1e, extractT t g2s g2e)
  | _ => ([], [])

/-- The notices emitted by the detection loop of main.py lines 83-94, in
left-to-right match order; the text is only read. -/
def detectorNotices (b : List Char) (t : Text) : List LinkNotice :=
  (finditer (internalPat b) t).map (fun m =>
    ⟨(linkGroupsOf t m).1, (linkGroupsOf t m).2, contextLinesOf t m⟩)

/-- The detection pass: the boolean `internal_links_found` together with
the (unaltered) text as it stands after the loop. -/
def detectInternalLinks (b : List Char) (t : Text) : Bool × Text :=
  (!(finditer (internalPat b) t).isEmpty, t)

/-! ### The per-page export (`export_doc`) and the driver loop (`main`) -/

/-- `PageDetails` (dao.py lines 24-29). -/
structure PageDetails where
  shelf : Text
  book : Text
  page_title : Text
  page_markdown : Text
  draft : Bool

/-- The synthesized title heading of main.py line 79:
`# ` + optional `DRAFT: ` + title + two newlines. -/
def titleHeading (d : PageDetails) : Text :=
  "# ".toList ++ (if d.draft then "DRAFT: ".toList else []) ++ d.page_title
    ++ ['\n', '\n']

/-- `safe_page_title = doc.page_title.replace("/", "-")`
(main.py line 97). -/
def sanitizeTitle (title : Text) : Text :=
  title.map (fun c => if c = '/' then '-' else c)

/-- Split a text on `'/'`; always non-empty, pieces slash-free. -/
def splitSlash : Text → List (List Char)
  | [] => [[]]
  | c :: r =>
    if c = '/' then [] :: splitSlash r
    else
      match splitSlash r with
      | h :: ts => (c :: h) :: ts
      | [] => [[c]]

/-- The name components pathlib keeps from one string: its slash-separated
pieces with empty pieces (spurious, duplicate or trailing slashes) and
single dots collapsed away; `..` is kept. -/
def pathParts (s : Text) : List Text :=
  (splitSlash s).filter (fun p => !(p.isEmpty) && !(p == ['.']))

/-- A POSIX path string is absolute iff it starts with a slash. -/
def isAbsPath (s : Text) : Bool :=
  s.head? == some '/'

/-- A normalized POSIX path as pathlib represents it: an absolute flag
(the `/` root) and the list of name components. -/
structure PathM where
  anchored : Bool
  parts : List Text
  deriving DecidableEq, Repr

/-- Parse one string into a normalized path. -/
def parsePath (s : Text) : PathM :=
  ⟨isAbsPath s, pathParts s⟩

/-- The pathlib `/` operator (`PurePosixPath.joinpath`): an absolute right
operand re-anchors the whole path, otherwise its components are
appended. -/
def joinPath (p : PathM) (s : Text) : PathM :=
  if isAbsPath s then parsePath s else ⟨p.anchored, p.parts ++ pathParts s⟩

/-- The directory `export_path / doc.shelf / doc.book` (main.py line 48),
with pathlib join semantics. -/
def pathToBook (exportPath : Text) (d : PageDetails) : PathM :=
  joinPath (joinPath (parsePath exportPath) d.shelf) d.book

/-- The output file path
`path_to_book / f"{safe_page_title}.md"` (main.py line 98); the `.md`
suffix is attached by string interpolation before the final join. -/
def pagePath (exportPath : Text) (d : PageDetails) : PathM :=
  joinPath (pathToBook exportPath d) (sanitizeTitle d.page_title ++ ".md".toList)

/-- The final text of a page: image rewrite, then heading normalization,
then the synthesized title heading (main.py lines 53-79). -/
def exportContent (b : List Char) (d : PageDetails) : Text :=
  titleHeading d ++ normalizeText (imageRewrite b d.page_markdown)

/-- A recorded file write: an image download target or the page's Markdown
file. -/
inductive FileWrite where
  | image (path : PathM) (content : Text)
  | page (path : PathM) (content : Text)
  deriving DecidableEq

/-- The image download-and-splice loop (main.py lines 53-67) with its side
effects: processes the given matches in order (the caller passes them
reversed), downloading each match's full-size URL; a failed download
(`raise_for_status`) aborts with the accumulated image writes. -/
def imageLoop (download : Text → Except Unit Text) (dir : PathM) (t0 : Text) :
    List RMatch → Text → List FileWrite × Except Unit Text
  | [], cur => ([], .ok cur)
  | m :: ms, cur =>
    match download (imageUrlOf t0 m) with
    | .error e => ([], .error e)
    | .ok bytes =>
      let rest := imageLoop download dir t0 ms (spliceOne t0 cur m)
      (.image (joinPath dir (filenameOf t0 m)) bytes :: rest.1, rest.2)

/-- `export_doc` (main.py lines 45-101): returns the file writes it
performed and either the manual-attention boolean or the propagated
download error (in which case the page file is never written). -/
def exportDoc (b : List Char) (download : Text → Except Unit Text)
    (exportPath : Text) (d : PageDetails) : List FileWrite × Except Unit Bool :=
  let t0 := d.page_markdown
  let dir := pathToBook exportPath d
  match imageLoop download dir t0 ((imageMatches b t0).reverse) t0 with
  | (ws, .error e) => (ws, .error e)
  | (ws, .ok t1) =>
    let tFinal := titleHeading d ++ normalizeText t1
    let found := (detectInternalLinks b tFinal).1
    (ws ++ [.page (pagePath exportPath d) ((detectInternalLinks b tFinal).2)],
      .ok found)

/-- The driver loop of `main` (main.py lines 127-131): export each page in
turn, aggregating the manual-attention flag; the first error stops the
run, leaving the remaining pages unprocessed. -/
def exportRun (b : List Char) (download : Text → Except Unit Text)
    (exportPath : Text) : List PageDetails → List FileWrite × Except Unit Bool
  | [] => ([], .ok false)
  | d :: ds =>
    match exportDoc b download exportPath d with
    | (ws, .error e) => (ws, .error e)
    | (ws, .ok flag) =>
      let rest := exportRun b download exportPath ds
      (ws ++ rest.1,
        match rest.2 with
        | .error e => .error e
        | .ok f => .ok (flag || f))

/-! ### Helper lemmas -/

lemma count_sanitizeTitle (title : Text) : (sanitizeTitle title).count '/' = 0 := by
  rw [List.count_eq_zero]
  intro h
  rcases List.mem_map.mp h with ⟨a, _, ha⟩
  by_cases h1 : a = '/' <;> simp [h1] at ha

lemma drop_succ_of_drop_cons (t : Text) (pos : Nat) (c : Char) (rest : Text)
    (h : t.drop pos = c :: rest) : t.drop (pos + 1) = rest := by
  have h1 : (t.drop pos).drop 1 = t.drop (pos + 1) := by
    rw [List.drop_drop, Nat.add_comm]
  rw [h] at h1
  simp at h1
  exact h1.symm

lemma scanIter_eq_nil_iff (p : Pat) (t : Text) :
    ∀ fuel pos, t.length + 1 ≤ fuel + pos → pos ≤ t.length →
    (scanIter p fuel pos (t.drop pos) = [] ↔
      ∀ i, pos ≤ i → i ≤ t.length → matchAt p t i = none) := by
  intro fuel
  induction fuel with
  | zero =>
    intro pos hfp hpos
    omega
  | succ n ih =>
    intro pos hfp hpos
    have hunf : scanIter p (n + 1) pos (t.drop pos)
        = match (p (pos, t.drop pos, [])).head? with
          | some (stop, suf2, ms) =>
            RMatch.mk pos stop ms ::
              (if pos < stop then scanIter p n stop suf2
               else
                 match t.drop pos with
                 | [] => []
                 | _ :: rest => scanIter p n (pos + 1) rest)
          | none =>
            match t.drop pos with
            | [] => []
            | _ :: rest => scanIter p n (pos + 1) rest := rfl
    rcases hm : (p (pos, t.drop pos, [])).head? with _ | ⟨stop, suf2, ms⟩
    · rw [hunf, hm]
      show (match t.drop pos with
        | [] => []
        | _ :: rest => scanIter p n (pos + 1) rest) = [] ↔ _
      rcases hdrop : t.drop pos with _ | ⟨c, rest⟩
      · constructor
        · intro _ i hpi hil
          have hlen : t.length - pos = 0 := by
            rw [← List.length_drop, hdrop]
            rfl
          have hip : i = pos := by omega
          rw [hip, matchAt]
          exact hm
        · intro _
          rfl
      · have hpl : pos + 1 ≤ t.length := by
          have h2 : (t.drop pos).length = t.length - pos := List.length_drop pos t
          rw [hdrop] at h2
          simp at h2
          omega
        have hrest : rest = t.drop (pos + 1) :=
          (drop_succ_of_drop_cons t pos c rest hdrop).symm
        show (scanIter p n (pos + 1) rest = []) ↔ _
        rw [hrest, ih (pos + 1) (by omega) hpl]
        constructor
        · intro h i hpi hil
          rcases Nat.eq_or_lt_of_le hpi with h1 | h1
          · rw [← h1, matchAt]
            exact hm
          · exact h i h1 hil
        · intro h i hpi hil
          exact h i (by omega) hil
    · rw [hunf, hm]
      constructor
      · intro h
        exact (List.cons_ne_nil _ _ h).elim
      · intro h
        have hc := h pos le_rfl hpos
        rw [matchAt, hm] at hc
        exact Option.noConfusion hc

/-! ### C9: path sanitization applies only to the title -/

lemma splitSlash_single (s : Text) (h : '/' ∉ s) : splitSlash s = [s] := by
  induction s with
  | nil => rfl
  | cons c r ih =>
    have hc : c ≠ '/' := fun hcn => h (hcn ▸ List.mem_cons_self c r)
    rw [splitSlash, if_neg hc, ih (fun hm => h (List.mem_cons_of_mem c hm))]

lemma pathParts_single (s : Text) (h : '/' ∉ s) (hne : s ≠ []) (hdot : s ≠ ['.']) :
    pathParts s = [s] := by
  have h1 : s.isEmpty = false := by
    rcases s with _ | ⟨c, r⟩
    · exact absurd rfl hne
    · rfl
  have h2 : (s == ['.']) = false := by
    rw [beq_eq_false_iff_ne]
    exact hdot
  rw [pathParts, splitSlash_single s h, List.filter_singleton, h1, h2]
  rfl

lemma isAbsPath_eq_false (s : Text) (h : '/' ∉ s) : isAbsPath s = false := by
  rcases s with _ | ⟨c, r⟩
  · rfl
  · have hc : c ≠ '/' := fun hcn => h (hcn ▸ List.mem_cons_self c r)
    simp [isAbsPath, hc]

lemma title_component_facts (title : Text) :
    '/' ∉ sanitizeTitle title ++ ".md".toList ∧
    sanitizeTitle title ++ ".md".toList ≠ [] ∧
    sanitizeTitle title ++ ".md".toList ≠ ['.'] := by
  refine ⟨?_, ?_, ?_⟩
  · intro hmem
    rcases List.mem_append.mp hmem with h1 | h1
    · exact absurd h1 (List.count_eq_zero.mp (count_sanitizeTitle title))
    · exact absurd h1 (by decide)
  · intro h
    have := congrArg List.length h
    simp at this
  · intro h
    have := congrArg List.length h
    simp [List.length_append] at this

/-- Counterexample to C9 as stated: a book name containing a `/` need not
produce any additional nested subdirectory — pathlib collapses a trailing
slash, so book `"B/"` yields the same output path as book `"B"`. -/
theorem c9_counterexample :
    (("B/".toList : Text).count '/' = 1) ∧
    pagePath "out".toList ⟨"S".toList, "B/".toList, "t".toList, [], false⟩
      = pagePath "out".toList ⟨"S".toList, "B".toList, "t".toList, [], false⟩ := by
  constructor
  · decide
  · decide

/-- C9 (amended): sanitization applies only to the page title — the
sanitized title contains no `/` and always contributes exactly one path
component — while shelf and book are joined verbatim under pathlib
semantics: for relative shelf and book names the output path's components
are those of the export root, the shelf and the book, followed by the
single title component, so a book whose name parses to two or more
components (an interior `/` between nonempty, non-dot pieces) produces
additional nested subdirectories; slashes that pathlib collapses
(trailing, duplicate, around dots) produce none. -/
theorem c9_title_only_sanitized (ep : Text) (d : PageDetails) :
    (sanitizeTitle d.page_title).count '/' = 0 ∧
    pathParts (sanitizeTitle d.page_title ++ ".md".toList)
      = [sanitizeTitle d.page_title ++ ".md".toList] ∧
    (isAbsPath d.shelf = false → isAbsPath d.book = false →
      (pagePath ep d).parts
        = (parsePath ep).parts ++ pathParts d.shelf ++ pathParts d.book
            ++ [sanitizeTitle d.page_title ++ ".md".toList] ∧
      (2 ≤ (pathParts d.book).length →
        (parsePath ep).parts.length + (pathParts d.shelf).length + 2
          < (pagePath ep d).parts.length)) := by
  obtain ⟨hmem, hne, hdot⟩ := title_component_facts d.page_title
  have hone : pathParts (sanitizeTitle d.page_title ++ ".md".toList)
      = [sanitizeTitle d.page_title ++ ".md".toList] :=
    pathParts_single _ hmem hne hdot
  refine ⟨count_sanitizeTitle d.page_title, hone, ?_⟩
  intro habs1 habs2
  have habs3 : isAbsPath (sanitizeTitle d.page_title ++ ".md".toList) = false :=
    isAbsPath_eq_false _ hmem
  have hparts : (pagePath ep d).parts
      = (parsePath ep).parts ++ pathParts d.shelf ++ pathParts d.book
          ++ [sanitizeTitle d.page_title ++ ".md".toList] := by
    rw [pagePath, pathToBook, joinPath, if_neg (by rw [habs3]; exact fun h => Bool.noConfusion h),
      joinPath, if_neg (by rw [habs2]; exact fun h => Bool.noConfusion h),
      joinPath, if_neg (by rw [habs1]; exact fun h => Bool.noConfusion h)]
    rw [hone]
  refine ⟨hparts, ?_⟩
  intro hbook
  rw [hparts]
  simp only [List.length_append, List.length_cons, List.length_nil]
  omega

/-- Witness for the amended C9 at a concrete record whose book name
contains an interior `/` and whose title contains a `/`. -/
theorem c9_title_only_sanitized_witness :
    (pagePath "out".toList
        ⟨"S".toList, "B/C".toList, "a/b".toList, [], false⟩).parts
      = (parsePath "out".toList).parts ++ pathParts "S".toList
          ++ pathParts "B/C".toList
          ++ [sanitizeTitle "a/b".toList ++ ".md".toList] ∧
    (parsePath "out".toList).parts.length + (pathParts "S".toList).length + 2
      < (pagePath "out".toList
          ⟨"S".toList, "B/C".toList, "a/b".toList, [], false⟩).parts.length := by
  have h := (c9_title_only_sanitized "out".toList
      ⟨"S".toList, "B/C".toList, "a/b".toList, [], false⟩).2.2 (by decide) (by decide)
  exact ⟨h.1, h.2 (by decide)⟩

/-! ### C7: detection is a pure boolean scan -/

lemma detect_true_iff (b : List Char) (t : Text) :
    (detectInternalLinks b t).1 = true ↔
      ∃ i, i ≤ t.length ∧ matchAt (internalPat b) t i ≠ none := by
  have hiff : (detectInternalLinks b t).1 = true ↔ finditer (internalPat b) t ≠ [] := by
    simp [detectInternalLinks, List.isEmpty_iff]
  have h := scanIter_eq_nil_iff (internalPat b) t (t.length + 1) 0 (by omega)
    (Nat.zero_le _)
  rw [List.drop_zero] at h
  rw [hiff, finditer, Ne, h]
  push_neg
  constructor
  · rintro ⟨i, _, h2, h3⟩
    exact ⟨i, h2, h3⟩
  · rintro ⟨i, h2, h3⟩
    exact ⟨i, Nat.zero_le i, h2, h3⟩

/-- C7: `InternalLinkDetector` returns true iff at least one position of
the input admits a match of the internal-link pattern, and the detection
pass leaves the text unchanged. -/
theorem c7_detector_pure_iff (b : List Char) (t : Text) :
    ((detectInternalLinks b t).1 = true ↔
      ∃ i, i ≤ t.length ∧ matchAt (internalPat b) t i ≠ none) ∧
    (detectInternalLinks b t).2 = t :=
  ⟨detect_true_iff b t, rfl⟩

/-! ### Heading line decomposition lemmas -/

lemma countRun_hash_replicate (x : Nat) (r : Text) :
    countRun (fun d => d = '#') (List.replicate x '#' ++ ' ' :: r) = x := by
  induction x with
  | zero => simp [countRun]
  | succ n ih => simpa [List.replicate_succ, countRun] using ih

lemma get?_hash_replicate (x : Nat) (r : Text) :
    (List.replicate x '#' ++ ' ' :: r).get? x = some ' ' := by
  induction x with
  | zero => simp
  | succ n ih => simpa [List.replicate_succ] using ih

lemma matchesHeader_iff_decomp (x : Nat) (l : Text) :
    matchesHeader x l = true ↔ ∃ r, l = List.replicate x '#' ++ ' ' :: r := by
  rw [matchesHeader, List.isPrefixOf_iff_prefix]
  constructor
  · rintro ⟨r, hr⟩
    exact ⟨r, by rw [← hr, headerTextL, List.append_assoc, List.singleton_append]⟩
  · rintro ⟨r, hr⟩
    exact ⟨r, by rw [hr, headerTextL, List.append_assoc, List.singleton_append]⟩

lemma countRun_hash_decomp (l : Text) :
    l = List.replicate (countRun (fun d => d = '#') l) '#'
          ++ l.drop (countRun (fun d => d = '#') l) := by
  induction l with
  | nil => simp [countRun]
  | cons c r ih =>
    by_cases hc : c = '#'
    · subst hc
      simp only [countRun, if_pos rfl, List.replicate_succ, List.cons_append,
        List.drop_succ_cons]
      exact congrArg _ ih
    · simp [countRun, hc]

lemma lineLevelB_iff_decomp (x : Nat) (l : Text) :
    lineLevelB l = some x ↔ 1 ≤ x ∧ ∃ r, l = List.replicate x '#' ++ ' ' :: r := by
  constructor
  · intro h
    rw [lineLevelB] at h
    set c := countRun (fun d => d = '#') l with hc
    by_cases hcond : 1 ≤ c ∧ l.get? c = some ' '
    · rw [if_pos hcond] at h
      have hcx : c = x := Option.some.inj h
      refine ⟨hcx ▸ hcond.1, l.drop (x + 1), ?_⟩
      have hdec := countRun_hash_decomp l
      rw [← hc, hcx] at hdec
      have hget : (l.drop x).get? 0 = some ' ' := by
        rw [List.get?_drop]
        exact hcx ▸ hcond.2
      rcases hdx : l.drop x with _ | ⟨d, tl⟩
      · rw [hdx] at hget; exact Option.noConfusion hget
      · rw [hdx] at hget
        have hd : d = ' ' := by simpa using hget
        have htl : tl = l.drop (x + 1) := by
          have h1 : (l.drop x).drop 1 = l.drop (x + 1) := by
            rw [List.drop_drop, Nat.add_comm]
          rw [hdx] at h1
          simpa using h1
        conv_lhs => rw [hdec, hdx]
        rw [hd, htl]
    · rw [if_neg hcond] at h
      exact Option.noConfusion h
  · rintro ⟨hx, r, hr⟩
    subst hr
    rw [lineLevelB]
    simp only [countRun_hash_replicate, get?_hash_replicate]
    rw [if_pos ⟨hx, trivial⟩]

lemma matchesHeader_iff_level (x : Nat) (hx : 1 ≤ x) (l : Text) :
    matchesHeader x l = true ↔ lineLevelB l = some x := by
  rw [matchesHeader_iff_decomp, lineLevelB_iff_decomp]
  exact ⟨fun h => ⟨hx, h⟩, fun h => h.2⟩

lemma substLine_of_level_ne (x : Nat) (hx : 1 ≤ x) (r l : Text)
    (h : lineLevelB l ≠ some x) : substLine x r l = l := by
  rw [substLine, if_neg]
  intro hm
  exact h ((matchesHeader_iff_level x hx l).mp hm)

lemma substLine_of_level_eq (x : Nat) (r rest : Text) :
    substLine x r (List.replicate x '#' ++ ' ' :: rest) = r ++ rest := by
  rw [substLine, if_pos]
  · congr 1
    rw [List.drop_append_eq_append_drop]
    simp
  · exact (matchesHeader_iff_decomp x _).mpr ⟨rest, rfl⟩

/-! ### The sequential substitution loop versus the one-pass rewrite -/

lemma foldl_map_fusion {α β : Type} (g : β → α → α) (xs : List β) (ls : List α) :
    xs.foldl (fun a x => a.map (g x)) ls
      = ls.map (fun l => xs.foldl (fun l2 x => g x l2) l) := by
  induction xs generalizing ls with
  | nil => simp
  | cons x r ih =>
    simp only [List.foldl_cons, ih, List.map_map]
    rfl

lemma foldSubst_of_none (t : Nat) (xs : List Nat) (l : Text)
    (hl : lineLevelB l = none) (hxs : ∀ x ∈ xs, 1 ≤ x) :
    xs.foldl (fun l2 x => substLine x (headerTextL (x - t + 1)) l2) l = l := by
  induction xs with
  | nil => rfl
  | cons x r ih =>
    rw [List.foldl_cons,
      substLine_of_level_ne x (hxs x (List.mem_cons_self x r)) _ l (by rw [hl]; intro h; exact Option.noConfusion h)]
    exact ih (fun y hy => hxs y (List.mem_cons_of_mem x hy))

lemma foldSubst_of_not_mem (t : Nat) (xs : List Nat) (l : Text) (L : Nat)
    (hl : lineLevelB l = some L) (hmem : L ∉ xs) (hxs : ∀ x ∈ xs, 1 ≤ x) :
    xs.foldl (fun l2 x => substLine x (headerTextL (x - t + 1)) l2) l = l := by
  induction xs with
  | nil => rfl
  | cons x r ih =>
    have hxL : L ≠ x := fun h => hmem (h ▸ List.mem_cons_self x r)
    rw [List.foldl_cons,
      substLine_of_level_ne x (hxs x (List.mem_cons_self x r)) _ l
        (by rw [hl]; intro h; exact hxL (Option.some.inj h))]
    exact ih (fun h => hmem (List.mem_cons_of_mem x h))
      (fun y hy => hxs y (List.mem_cons_of_mem x hy))

lemma range'_levels_ge (s n x : Nat) (hs : 1 ≤ s) (hx : x ∈ List.range' s n) : 1 ≤ x := by
  have := (List.mem_range'_1.mp hx).1
  omega

lemma foldSubst_line (t L : Nat) (ht : 1 ≤ t) (htL : t ≤ L) (hL7 : L ≤ 7) (rest : Text) :
    (List.range' t (8 - t)).foldl (fun l2 x => substLine x (headerTextL (x - t + 1)) l2)
      (List.replicate L '#' ++ ' ' :: rest)
    = headerTextL (L - t + 1) ++ rest := by
  have hsplit : List.range' t (8 - t)
      = List.range' t (L - t) ++ L :: List.range' (L + 1) (7 - L) := by
    have h1 : List.range' t (L - t) ++ List.range' (t + (L - t)) (8 - L)
        = List.range' t ((8 - L) + (L - t)) := List.range'_append_1 t (L - t) (8 - L)
    have h2 : t + (L - t) = L := by omega
    have h3 : (8 - L) + (L - t) = 8 - t := by omega
    have h4 : 8 - L = (7 - L) + 1 := by omega
    rw [h2, h3] at h1
    rw [← h1, h4, List.range'_succ]
  rw [hsplit, List.foldl_append]
  rw [foldSubst_of_not_mem t _ _ L
    ((lineLevelB_iff_decomp L _).mpr ⟨by omega, rest, rfl⟩)
    (by intro h; have := (List.mem_range'_1.mp h).2; omega)
    (fun y hy => range'_levels_ge t (L - t) y ht hy)]
  rw [List.foldl_cons, substLine_of_level_eq]
  have hlev : lineLevelB (headerTextL (L - t + 1) ++ rest) = some (L - t + 1) := by
    rw [headerTextL, List.append_assoc, List.singleton_append]
    exact (lineLevelB_iff_decomp _ _).mpr ⟨by omega, rest, rfl⟩
  exact foldSubst_of_not_mem t _ _ (L - t + 1) hlev
    (by intro h; have := (List.mem_range'_1.mp h).1; omega)
    (fun y hy => range'_levels_ge (L + 1) (7 - L) y (by omega) hy)

/-- The sequential per-level loop equals the one-pass simultaneous
rewrite, for any shift base `t ≥ 1`. -/
lemma seqRewrite_eq_onePass (t : Nat) (ht : 1 ≤ t) (lines : List (List Char)) :
    seqRewrite t lines = onePassRewrite t lines := by
  rw [seqRewrite, LOWEST_HEADER_LEVEL, foldl_map_fusion, onePassRewrite]
  apply List.map_congr_left
  intro l _
  rcases hl : lineLevelB l with _ | L
  · rw [foldSubst_of_none t _ l hl (fun y hy => range'_levels_ge t (8 - t) y ht hy)]
  · show _ = if t ≤ L ∧ L ≤ 7 then headerTextL (shiftLevel t L) ++ List.drop (L + 1) l else l
    rcases (lineLevelB_iff_decomp L l).mp hl with ⟨hL1, rest, hrest⟩
    by_cases hcase : t ≤ L ∧ L ≤ 7
    · rw [if_pos hcase, shiftLevel, if_pos hcase]
      subst hrest
      rw [foldSubst_line t L ht hcase.1 hcase.2 rest]
      congr 1
      rw [List.drop_append_eq_append_drop]
      simp
    · rw [if_neg hcase]
      exact foldSubst_of_not_mem t _ l L hl
        (by intro h; have := List.mem_range'_1.mp h; exact hcase ⟨this.1, by omega⟩)
        (fun y hy => range'_levels_ge t (8 - t) y ht hy)

/-! ### Properties of `get_top_level_header` -/

lemma getTop_some_spec (lines : List (List Char)) (t : Nat)
    (h : getTopLevelHeader lines = some t) :
    1 ≤ t ∧ t ≤ 7 ∧ lines.any (matchesHeader t) = true ∧
      ∀ y, 1 ≤ y → y < t → lines.any (matchesHeader y) = false := by
  rw [getTopLevelHeader] at h
  rcases List.find?_eq_some.mp h with ⟨hp, as, bs, hsplit, hfail⟩
  have hmem : t ∈ List.range' 1 (LOWEST_HEADER_LEVEL - 1) := by
    rw [hsplit]
    exact List.mem_append_right as (List.mem_cons_self t bs)
  have hrange := List.mem_range'_1.mp hmem
  rw [LOWEST_HEADER_LEVEL] at hrange
  refine ⟨hrange.1, by omega, hp, ?_⟩
  intro y h1 hyt
  rcases List.range'_eq_append_iff.mp hsplit with ⟨k, hk, has, hbs⟩
  have hts : t = 1 + k := by
    have : (t :: bs).head? = some t := rfl
    rw [hbs] at this
    rcases Nat.eq_zero_or_pos (LOWEST_HEADER_LEVEL - 1 - k) with h0 | hpos
    · rw [h0] at this; exact Option.noConfusion this
    · have : List.range' (1 + k) (LOWEST_HEADER_LEVEL - 1 - k)
          = (1 + k) :: List.range' (1 + k + 1) (LOWEST_HEADER_LEVEL - 1 - k - 1) := by
        rw [← List.range'_succ]
        congr 1
        omega
      rw [this] at hbs
      have := (List.cons.injEq _ _ _ _).mp hbs
      exact this.1
  have hymem : y ∈ as := by
    rw [has, List.mem_range'_1]
    omega
  have := hfail y hymem
  simpa using this

lemma getTop_eq_some_of (lines : List (List Char)) (L : Nat)
    (h1 : 1 ≤ L) (h7 : L ≤ 7)
    (hhas : lines.any (matchesHeader L) = true)
    (hno : ∀ y, 1 ≤ y → y < L → lines.any (matchesHeader y) = false) :
    getTopLevelHeader lines = some L := by
  rw [getTopLevelHeader]
  apply List.find?_eq_some.mpr
  refine ⟨hhas, List.range' 1 (L - 1), List.range' (L + 1) (7 - L), ?_, ?_⟩
  · have h1' : List.range' 1 (L - 1) ++ List.range' (1 + (L - 1)) (8 - L)
        = List.range' 1 ((8 - L) + (L - 1)) := List.range'_append_1 1 (L - 1) (8 - L)
    have h2 : 1 + (L - 1) = L := by omega
    have h3 : (8 - L) + (L - 1) = 7 := by omega
    have h4 : 8 - L = (7 - L) + 1 := by omega
    rw [h2, h3, h4, List.range'_succ] at h1'
    rw [LOWEST_HEADER_LEVEL]
    exact h1'.symm
  · intro y hy
    have := List.mem_range'_1.mp hy
    simp [hno y this.1 (by omega)]

lemma getTop_none_iff (lines : List (List Char)) :
    getTopLevelHeader lines = none ↔
      ∀ y, 1 ≤ y → y ≤ 7 → lines.any (matchesHeader y) = false := by
  rw [getTopLevelHeader, List.find?_eq_none]
  constructor
  · intro h y h1 h7
    have : y ∈ List.range' 1 (LOWEST_HEADER_LEVEL - 1) := by
      rw [List.mem_range'_1, LOWEST_HEADER_LEVEL]
      omega
    simpa using h y this
  · intro h y hy
    have := List.mem_range'_1.mp hy
    rw [LOWEST_HEADER_LEVEL] at this
    simp [h y this.1 (by omega)]

/-! ### Level bookkeeping helpers -/

lemma lineLevelB_ge_one (l : Text) (k : Nat) (h : lineLevelB l = some k) : 1 ≤ k :=
  ((lineLevelB_iff_decomp k l).mp h).1

lemma minLevel_ge_one (lines : List (List Char)) (m : Nat)
    (h : minLevel lines = some m) : 1 ≤ m := by
  induction lines generalizing m with
  | nil => exact Option.noConfusion h
  | cons l r ih =>
    rw [minLevel] at h
    split at h
    · next k a hl hr =>
      have hk := lineLevelB_ge_one l k hl
      have ha := ih a hr
      have := Option.some.inj h
      have hmin : min k a = m := this
      have : 1 ≤ min k a := le_min hk ha
      omega
    · next k hl _ =>
      have hk := lineLevelB_ge_one l k hl
      have := Option.some.inj h
      omega
    · next hl =>
      exact ih m h

lemma minLevel_eq_one_of_mem (lines : List (List Char))
    (h : ∃ l ∈ lines, lineLevelB l = some 1) : minLevel lines = some 1 := by
  induction lines with
  | nil => simp at h
  | cons l r ih =>
    rw [minLevel]
    rcases h with ⟨l0, hl0, hlev⟩
    rcases List.mem_cons.mp hl0 with h0 | h0
    · subst h0
      rw [hlev]
      rcases hr : minLevel r with _ | a
      · rfl
      · show some (min 1 a) = some 1
        rw [min_eq_left (minLevel_ge_one r a hr)]
    · have hmr : minLevel r = some 1 := ih ⟨l0, h0, hlev⟩
      rw [hmr]
      rcases hl : lineLevelB l with _ | k
      · rfl
      · show some (min k 1) = some 1
        rw [min_eq_right (lineLevelB_ge_one l k hl)]

/-- The per-line body of `onePassRewrite`. -/
def onePassLine (t : Nat) (l : Text) : Text :=
  match lineLevelB l with
  | some L => if t ≤ L ∧ L ≤ 7 then headerTextL (shiftLevel t L) ++ l.drop (L + 1) else l
  | none => l

lemma onePassRewrite_eq_map (t : Nat) (lines : List (List Char)) :
    onePassRewrite t lines = lines.map (onePassLine t) := rfl

lemma onePassLine_of_none (t : Nat) (l : Text) (h : lineLevelB l = none) :
    onePassLine t l = l := by
  rw [onePassLine, h]

lemma onePassLine_of_some (t : Nat) (l : Text) (a : Nat) (h : lineLevelB l = some a) :
    onePassLine t l
      = if t ≤ a ∧ a ≤ 7 then headerTextL (shiftLevel t a) ++ l.drop (a + 1) else l := by
  rw [onePassLine, h]

lemma lineLevelB_onePassLine (t : Nat) (ht : 1 ≤ t) (l : Text) (a : Nat)
    (h : lineLevelB l = some a) :
    lineLevelB (onePassLine t l) = some (shiftLevel t a) := by
  rw [onePassLine_of_some t l a h]
  by_cases hc : t ≤ a ∧ a ≤ 7
  · rw [if_pos hc, shiftLevel, if_pos hc]
    rcases (lineLevelB_iff_decomp a l).mp h with ⟨_, rest, hrest⟩
    have hdrop : l.drop (a + 1) = rest := by
      rw [hrest, List.drop_append_eq_append_drop]
      simp
    rw [hdrop, headerTextL, List.append_assoc, List.singleton_append]
    exact (lineLevelB_iff_decomp _ _).mpr ⟨by omega, rest, rfl⟩
  · rw [if_neg hc, shiftLevel, if_neg hc]
    exact h

lemma onePassLine_one_id (l : Text) : onePassLine 1 l = l := by
  rcases hl : lineLevelB l with _ | a
  · exact onePassLine_of_none 1 l hl
  · rw [onePassLine_of_some 1 l a hl]
    by_cases hc : 1 ≤ a ∧ a ≤ 7
    · rw [if_pos hc, shiftLevel, if_pos hc]
      rcases (lineLevelB_iff_decomp a l).mp hl with ⟨_, rest, hrest⟩
      have hdrop : l.drop (a + 1) = rest := by
        rw [hrest, List.drop_append_eq_append_drop]
        simp
      rw [hdrop]
      have : a - 1 + 1 = a := by omega
      rw [this, hrest, headerTextL, List.append_assoc, List.singleton_append]
    · rw [if_neg hc]

lemma onePassRewrite_one_id (lines : List (List Char)) :
    onePassRewrite 1 lines = lines := by
  rw [onePassRewrite_eq_map]
  calc lines.map (onePassLine 1) = lines.map id := List.map_congr_left
        (fun l _ => onePassLine_one_id l)
    _ = lines := List.map_id lines

/-- Whenever detection fires, the code's normalization step coincides with
the one-pass rewrite at the detected level. -/
lemma normalizeLines_eq_onePass_of_some (lines : List (List Char)) (L : Nat)
    (hdet : getTopLevelHeader lines = some L) :
    normalizeLines lines = onePassRewrite L lines := by
  have hL := getTop_some_spec lines L hdet
  rw [normalizeLines, hdet]
  show (if L = 1 then lines else seqRewrite L lines) = onePassRewrite L lines
  by_cases h1 : L = 1
  · rw [if_pos h1, h1, onePassRewrite_one_id]
  · rw [if_neg h1]
    exact seqRewrite_eq_onePass L hL.1 lines

/-! ### split/join and idempotence lemmas -/

lemma splitLines_ne_nil (s : Text) : splitLines s ≠ [] := by
  induction s with
  | nil => simp [splitLines]
  | cons c r ih =>
    rw [splitLines]
    by_cases hc : c = '\n'
    · simp [hc]
    · simp only [if_neg hc]
      rcases h : splitLines r with _ | ⟨a, b⟩ <;> simp

lemma splitLines_no_newline (s : Text) : ∀ l ∈ splitLines s, '\n' ∉ l := by
  induction s with
  | nil =>
    intro l hl
    rw [splitLines, List.mem_singleton] at hl
    simp [hl]
  | cons c r ih =>
    intro l hl
    rw [splitLines] at hl
    by_cases hc : c = '\n'
    · rw [if_pos hc, List.mem_cons] at hl
      rcases hl with h | h
      · simp [h]
      · exact ih l h
    · rw [if_neg hc] at hl
      rcases h : splitLines r with _ | ⟨a, b⟩ <;> rw [h] at hl
      · rw [List.mem_singleton] at hl
        subst hl
        simp [Ne.symm hc]
      · rw [List.mem_cons] at hl
        rcases hl with h1 | h1
        · subst h1
          intro hmem
          rcases List.mem_cons.mp hmem with h2 | h2
          · exact hc h2.symm
          · exact ih a (by rw [h]; exact List.mem_cons_self a b) h2
        · exact ih l (by rw [h]; exact List.mem_cons_of_mem a h1)

lemma splitLines_single (l : Text) (h : '\n' ∉ l) : splitLines l = [l] := by
  induction l with
  | nil => rfl
  | cons c r ih =>
    have hc : c ≠ '\n' := fun hcn => h (hcn ▸ List.mem_cons_self c r)
    rw [splitLines, if_neg hc, ih (fun hm => h (List.mem_cons_of_mem c hm))]

lemma splitLines_append_cons (l u : Text) (h : '\n' ∉ l) :
    splitLines (l ++ '\n' :: u) = l :: splitLines u := by
  induction l with
  | nil =>
    rw [List.nil_append, splitLines, if_pos rfl]
  | cons c r ih =>
    have hc : c ≠ '\n' := fun hcn => h (hcn ▸ List.mem_cons_self c r)
    rw [List.cons_append, splitLines, if_neg hc,
      ih (fun hm => h (List.mem_cons_of_mem c hm))]

lemma splitLines_joinLines (ls : List (List Char)) (hne : ls ≠ [])
    (hnl : ∀ l ∈ ls, '\n' ∉ l) : splitLines (joinLines ls) = ls := by
  induction ls with
  | nil => exact absurd rfl hne
  | cons l r ih =>
    rcases r with _ | ⟨a, b⟩
    · rw [joinLines]
      exact splitLines_single l (hnl l (List.mem_singleton.mpr rfl))
    · rw [show joinLines (l :: a :: b) = l ++ '\n' :: joinLines (a :: b) from rfl]
      rw [splitLines_append_cons l _ (hnl l (List.mem_cons_self l _))]
      rw [ih (List.cons_ne_nil a b) (fun x hx => hnl x (List.mem_cons_of_mem l hx))]

lemma normalizeLines_of_top_none (ls : List (List Char))
    (h : getTopLevelHeader ls = none) : normalizeLines ls = ls := by
  rw [normalizeLines, h]

lemma normalizeLines_of_top_one (ls : List (List Char))
    (h : getTopLevelHeader ls = some 1) : normalizeLines ls = ls := by
  rw [normalizeLines, h]
  show (if 1 = 1 then ls else seqRewrite 1 ls) = ls
  rw [if_pos rfl]

lemma normalizeLines_no_newline (ls : List (List Char))
    (h : ∀ l ∈ ls, '\n' ∉ l) : ∀ l ∈ normalizeLines ls, '\n' ∉ l := by
  rcases hdet : getTopLevelHeader ls with _ | t
  · rw [normalizeLines_of_top_none ls hdet]; exact h
  · rw [normalizeLines_eq_onePass_of_some ls t hdet, onePassRewrite_eq_map]
    intro l hl
    rcases List.mem_map.mp hl with ⟨l0, hl0, hfl⟩
    subst hfl
    rcases hlev : lineLevelB l0 with _ | a
    · rw [onePassLine_of_none t l0 hlev]; exact h l0 hl0
    · rw [onePassLine_of_some t l0 a hlev]
      by_cases hc : t ≤ a ∧ a ≤ 7
      · rw [if_pos hc]
        intro hmem
        rcases List.mem_append.mp hmem with h1 | h1
        · rw [headerTextL] at h1
          rcases List.mem_append.mp h1 with h2 | h2
          · have := List.eq_of_mem_replicate h2
            exact absurd this (by decide)
          · rw [List.mem_singleton] at h2
            exact absurd h2 (by decide)
        · exact h l0 hl0 (List.mem_of_mem_drop h1)
      · rw [if_neg hc]; exact h l0 hl0

lemma normalizeLines_ne_nil (ls : List (List Char)) (h : ls ≠ []) :
    normalizeLines ls ≠ [] := by
  rcases hdet : getTopLevelHeader ls with _ | t
  · rw [normalizeLines_of_top_none ls hdet]; exact h
  · rw [normalizeLines_eq_onePass_of_some ls t hdet, onePassRewrite_eq_map]
    simpa using h

lemma normalizeLines_idem (lines : List (List Char)) :
    normalizeLines (normalizeLines lines) = normalizeLines lines := by
  rcases hdet : getTopLevelHeader lines with _ | t
  · rw [normalizeLines_of_top_none lines hdet,
      normalizeLines_of_top_none lines hdet]
  · have hspec := getTop_some_spec lines t hdet
    by_cases ht1 : t = 1
    · subst ht1
      rw [normalizeLines_of_top_one lines hdet,
        normalizeLines_of_top_one lines hdet]
    · have hmap := normalizeLines_eq_onePass_of_some lines t hdet
      have hdet2 : getTopLevelHeader (normalizeLines lines) = some 1 := by
        refine getTop_eq_some_of _ 1 le_rfl (by omega) ?_ ?_
        · rcases List.any_eq_true.mp hspec.2.2.1 with ⟨l0, hl0, hm⟩
          have hlev : lineLevelB l0 = some t :=
            (matchesHeader_iff_level t hspec.1 l0).mp hm
          apply List.any_eq_true.mpr
          refine ⟨onePassLine t l0, ?_, ?_⟩
          · rw [hmap, onePassRewrite_eq_map]
            exact List.mem_map_of_mem _ hl0
          · have hol := lineLevelB_onePassLine t hspec.1 l0 t hlev
            have hsh : shiftLevel t t = 1 := by
              rw [shiftLevel, if_pos ⟨le_rfl, hspec.2.1⟩]; omega
            rw [matchesHeader_iff_level 1 le_rfl, hol, hsh]
        · intro y h1y hy1
          omega
      exact normalizeLines_of_top_one _ hdet2

/-! ### C4: sequential substitutions refine the one-pass rewrite -/

/-- C4: when the detected top heading level is `t > 1`, the code's
per-level sequential substitutions (ascending from `t` to 7) produce the
same result as computing the mapping `L ↦ L - t + 1` for every level from
`t` to 7 over the original lines and applying all substitutions in one
pass; in particular no line produced by an earlier substitution is
rewritten again. -/
theorem c4_sequential_is_one_pass (lines : List (List Char)) (t : Nat)
    (hdet : getTopLevelHeader lines = some t) (ht : 1 < t) :
    seqRewrite t lines = onePassRewrite t lines :=
  seqRewrite_eq_onePass t (by omega) lines

/-- Witness for C4 on a concrete page whose top heading level is 2. -/
theorem c4_sequential_is_one_pass_witness :
    seqRewrite 2 [['#', '#', ' ', 'x'], ['#', '#', '#', ' ', 'y']]
      = onePassRewrite 2 [['#', '#', ' ', 'x'], ['#', '#', '#', ' ', 'y']] :=
  c4_sequential_is_one_pass _ 2 (by decide) (by decide)

/-! ### C5: normalization produces top level 1 and preserves depth order -/

/-- No line of `lines` is a heading of level strictly below `L`. -/
def noLevelBelowB (L : Nat) (lines : List (List Char)) : Bool :=
  lines.all (fun l =>
    match lineLevelB l with
    | some k => decide (L ≤ k)
    | none => true)

lemma noLevelBelowB_spec (L : Nat) (lines : List (List Char))
    (h : noLevelBelowB L lines = true) :
    ∀ l ∈ lines, ∀ k, lineLevelB l = some k → L ≤ k := by
  intro l hl k hk
  have := List.all_eq_true.mp h l hl
  rw [hk] at this
  exact of_decide_eq_true this

lemma shiftLevel_mono (L a b : Nat) (hL : 1 ≤ L) (ha : L ≤ a) (hb : L ≤ b) :
    (a ≤ b ↔ shiftLevel L a ≤ shiftLevel L b) ∧
    (a = b ↔ shiftLevel L a = shiftLevel L b) := by
  unfold shiftLevel
  split_ifs <;> omega

lemma getTop_of_has_and_below (lines : List (List Char)) (L : Nat)
    (h1 : 1 ≤ L) (h7 : L ≤ 7)
    (hhas : lines.any (matchesHeader L) = true)
    (hno : noLevelBelowB L lines = true) :
    getTopLevelHeader lines = some L := by
  apply getTop_eq_some_of lines L h1 h7 hhas
  intro y hy1 hyL
  by_contra hcon
  rw [Bool.not_eq_false, List.any_eq_true] at hcon
  rcases hcon with ⟨l0, hl0, hm⟩
  have hlev := (matchesHeader_iff_level y hy1 l0).mp hm
  have := noLevelBelowB_spec L lines hno l0 hl0 y hlev
  omega

/-- C5: for lines with a heading at level `L` (`1 ≤ L ≤ 7`) and none
below `L`, the detect-plus-rewrite step yields minimum heading level
exactly 1 and maps every heading of level `a` to level `shiftLevel L a`,
preserving relative depth order; for lines with no heading at any level
1..7 the detection returns `none` and the lines are unchanged; headings
of level 8 or deeper are never rewritten. -/
theorem c5_normalization_correct :
    (∀ (lines : List (List Char)) (L : Nat), 1 ≤ L → L ≤ 7 →
      lines.any (matchesHeader L) = true → noLevelBelowB L lines = true →
      minLevel (normalizeLines lines) = some 1 ∧
      ∀ i li a, lines.get? i = some li → lineLevelB li = some a →
        (normalizeLines lines).get? i = some (onePassLine L li) ∧
        lineLevelB (onePassLine L li) = some (shiftLevel L a) ∧
        ∀ b, L ≤ b →
          ((a ≤ b ↔ shiftLevel L a ≤ shiftLevel L b) ∧
           (a = b ↔ shiftLevel L a = shiftLevel L b))) ∧
    (∀ lines : List (List Char), noLevelBelowB 8 lines = true →
      getTopLevelHeader lines = none ∧ normalizeLines lines = lines) ∧
    (∀ (lines : List (List Char)) (i : Nat) (li : List Char) (a : Nat),
      lines.get? i = some li → lineLevelB li = some a → 8 ≤ a →
      (normalizeLines lines).get? i = some li) := by
  refine ⟨?_, ?_, ?_⟩
  · intro lines L h1 h7 hhas hno
    have hdet := getTop_of_has_and_below lines L h1 h7 hhas hno
    have hmap : normalizeLines lines = lines.map (onePassLine L) := by
      rw [normalizeLines_eq_onePass_of_some lines L hdet, onePassRewrite_eq_map]
    constructor
    · apply minLevel_eq_one_of_mem
      rcases List.any_eq_true.mp hhas with ⟨l0, hl0, hm⟩
      have hlev := (matchesHeader_iff_level L h1 l0).mp hm
      refine ⟨onePassLine L l0, ?_, ?_⟩
      · rw [hmap]; exact List.mem_map_of_mem _ hl0
      · have hol := lineLevelB_onePassLine L h1 l0 L hlev
        have hsh : shiftLevel L L = 1 := by
          rw [shiftLevel, if_pos ⟨le_rfl, h7⟩]; omega
        rw [hol, hsh]
    · intro i li a hget hlev
      have hmem : li ∈ lines := List.get?_mem hget
      have haL : L ≤ a := noLevelBelowB_spec L lines hno li hmem a hlev
      refine ⟨?_, lineLevelB_onePassLine L h1 li a hlev, ?_⟩
      · rw [hmap, List.get?_map, hget, Option.map_some']
      · intro b hb
        exact shiftLevel_mono L a b h1 haL hb
  · intro lines hno
    have hnone : getTopLevelHeader lines = none := by
      rw [getTop_none_iff]
      intro y h1 h7
      by_contra hcon
      rw [Bool.not_eq_false, List.any_eq_true] at hcon
      rcases hcon with ⟨l0, hl0, hm⟩
      have hlev := (matchesHeader_iff_level y h1 l0).mp hm
      have := noLevelBelowB_spec 8 lines hno l0 hl0 y hlev
      omega
    exact ⟨hnone, normalizeLines_of_top_none lines hnone⟩
  · intro lines i li a hget hlev ha
    rcases hdet : getTopLevelHeader lines with _ | t
    · rw [normalizeLines_of_top_none lines hdet, hget]
    · have hspec := getTop_some_spec lines t hdet
      rw [normalizeLines_eq_onePass_of_some lines t hdet, onePassRewrite_eq_map,
        List.get?_map, hget, Option.map_some']
      rw [onePassLine_of_some t li a hlev, if_neg (by omega)]

/-- Witness for C5: a concrete two-line page with top level 2, an empty
page, and a level-8 heading line. -/
theorem c5_normalization_correct_witness :
    minLevel (normalizeLines [['#', '#', ' ', 'x'], ['#', '#', '#', ' ', 'y']]) = some 1 ∧
    getTopLevelHeader [['a']] = none ∧
    (normalizeLines [['#', '#', ' ', 'x'],
        ['#', '#', '#', '#', '#', '#', '#', '#', ' ', 'z']]).get? 1
      = some ['#', '#', '#', '#', '#', '#', '#', '#', ' ', 'z'] :=
  ⟨(c5_normalization_correct.1 [['#', '#', ' ', 'x'], ['#', '#', '#', ' ', 'y']] 2
      (by decide) (by decide) (by decide) (by decide)).1,
   (c5_normalization_correct.2.1 [['a']] (by decide)).1,
   c5_normalization_correct.2.2 [['#', '#', ' ', 'x'],
      ['#', '#', '#', '#', '#', '#', '#', '#', ' ', 'z']] 1
      ['#', '#', '#', '#', '#', '#', '#', '#', ' ', 'z'] 8
      (by decide) (by decide) (by decide)⟩

/-! ### C6: the detect-plus-rewrite step is idempotent -/

/-- C6: applying the heading detect-plus-rewrite step twice to a page
text yields the same result as applying it once. -/
theorem c6_normalize_idempotent (t : Text) :
    normalizeText (normalizeText t) = normalizeText t := by
  have hnl := splitLines_no_newline t
  have hne := splitLines_ne_nil t
  have h1 : splitLines (joinLines (normalizeLines (splitLines t)))
      = normalizeLines (splitLines t) :=
    splitLines_joinLines _ (normalizeLines_ne_nil _ hne)
      (normalizeLines_no_newline _ hnl)
  show joinLines (normalizeLines (splitLines (joinLines (normalizeLines (splitLines t)))))
      = normalizeText t
  rw [h1, normalizeLines_idem]
  rfl

/-! ### C1: the image splice loop versus simultaneous replacement -/

lemma spansSepOK_mono (len : Nat) (ms : List RMatch) (c c2 : Nat) (hc : c2 ≤ c)
    (h : spansSepOK len c ms = true) : spansSepOK len c2 ms = true := by
  cases ms with
  | nil => rfl
  | cons m r =>
    rw [spansSepOK] at h ⊢
    simp only [Bool.and_eq_true, decide_eq_true_eq] at h ⊢
    exact ⟨⟨⟨by omega, h.1.1.2⟩, h.1.2⟩, h.2⟩

lemma spansSepOK_head_start (len : Nat) (m : RMatch) (r : List RMatch) (c : Nat)
    (h : spansSepOK len c (m :: r) = true) : c ≤ m.start := by
  rw [spansSepOK] at h
  simp only [Bool.and_eq_true, decide_eq_true_eq] at h
  exact h.1.1.1

lemma extractT_zero (t : Text) (b : Nat) : extractT t 0 b = t.take b := by
  rw [extractT, List.drop_zero, Nat.sub_zero]

lemma extractT_join (t : Text) (a b c : Nat) (hab : a ≤ b) (hbc : b ≤ c) :
    extractT t a c = extractT t a b ++ extractT t b c := by
  rw [extractT, extractT, extractT]
  have h1 : c - a = (b - a) + (c - b) := by omega
  have h2 : (t.drop a).drop (b - a) = t.drop b := by
    rw [List.drop_drop]
    congr 1
    omega
  rw [h1, List.take_add, h2]

lemma simReplaceExt_extend (t0 : Text) (ms : List RMatch) (c2 c : Nat)
    (hcc : c2 ≤ c) (hstart : ∀ m r, ms = m :: r → c ≤ m.start) :
    simReplaceExt t0 c2 ms = extractT t0 c2 c ++ simReplaceExt t0 c ms := by
  cases ms with
  | nil =>
    rw [simReplaceExt, simReplaceExt, extractT]
    rw [show t0.drop c = (t0.drop c2).drop (c - c2) by rw [List.drop_drop]; congr 1; omega]
    exact (List.take_append_drop (c - c2) (t0.drop c2)).symm
  | cons m r =>
    rw [simReplaceExt, simReplaceExt, ← List.append_assoc, ← List.append_assoc]
    congr 2
    exact extractT_join t0 c2 c m.start hcc (hstart m r rfl)

lemma foldl_splice_eq_simExt (t0 : Text) (ms : List RMatch) (c : Nat)
    (h : spansSepOK t0.length c ms = true) :
    (ms.reverse).foldl (spliceOne t0) t0 = simReplaceExt t0 0 ms := by
  induction ms generalizing c with
  | nil => rw [List.reverse_nil, List.foldl_nil, simReplaceExt, List.drop_zero]
  | cons m r ih =>
    rw [spansSepOK] at h
    simp only [Bool.and_eq_true, decide_eq_true_eq] at h
    obtain ⟨⟨⟨hcs, hss⟩, hsl⟩, hrest⟩ := h
    have hF : ((m :: r).reverse).foldl (spliceOne t0) t0
        = spliceOne t0 ((r.reverse).foldl (spliceOne t0) t0) m := by
      rw [List.reverse_cons, List.foldl_append, List.foldl_cons, List.foldl_nil]
    rw [hF, ih (m.stop + 1) hrest]
    have hsplit : simReplaceExt t0 0 r
        = t0.take (m.stop + 1) ++ simReplaceExt t0 (m.stop + 1) r := by
      rw [simReplaceExt_extend t0 r 0 (m.stop + 1) (Nat.zero_le _)
        (fun m2 r2 h2 => spansSepOK_head_start t0.length m2 r2 (m.stop + 1) (h2 ▸ hrest)),
        extractT_zero]
    rw [hsplit, spliceOne]
    have hlen : (t0.take (m.stop + 1)).length = m.stop + 1 :=
      List.length_take_of_le hsl
    have htake : (t0.take (m.stop + 1) ++ simReplaceExt t0 (m.stop + 1) r).take m.start
        = t0.take m.start := by
      rw [List.take_append_of_le_length (by omega), List.take_take,
        Nat.min_eq_left (by omega)]
    have hdrop : (t0.take (m.stop + 1) ++ simReplaceExt t0 (m.stop + 1) r).drop (m.stop + 1)
        = simReplaceExt t0 (m.stop + 1) r := by
      rw [List.drop_append_eq_append_drop, List.drop_eq_nil_of_le hlen.le, hlen,
        Nat.sub_self, List.drop_zero, List.nil_append]
    rw [htake, hdrop, simReplaceExt, extractT_zero]

/-- C1 (amended): each splice of the image loop replaces the span
`[start, stop + 1)` — the matched span plus the one character after it
(the code slices from `match.end() + 1`); provided every match is
followed by at least one character of the text and the extended spans are
pairwise disjoint, the rightmost-first loop equals simultaneously
replacing all extended spans of the original text with `![](filename)`. -/
theorem c1_image_rewrite_simultaneous_ext (b : List Char) (t : Text)
    (h : spansSepOK t.length 0 (imageMatches b t) = true) :
    imageRewrite b t = simReplaceExt t 0 (imageMatches b t) :=
  foldl_splice_eq_simExt t (imageMatches b t) 0 h

/-- A concrete page: one image reference followed by the text `Z!`. -/
def c1ExText : Text :=
  "[![alt](u/uploads/a.png)](u/uploads/x/pic.png)Z!".toList

/-- A concrete page with two image references, each followed by at least
one further character. -/
def c1TwoText : Text :=
  ("[![a](u/uploads/a.png)](u/uploads/x/p1.png)Q\n"
    ++ "[![b](u/uploads/b.png)](u/uploads/y/p2.png) end").toList

/-- Counterexample to C1 as stated: the code does not replace exactly the
matched span — the character `Z` right after the match is deleted as well,
so the result differs from the simultaneous exact-span replacement. -/
theorem c1_counterexample :
    imageRewrite ['u'] c1ExText = "![](pic.png)!".toList ∧
    simReplaceExact c1ExText 0 (imageMatches ['u'] c1ExText)
      = "![](pic.png)Z!".toList ∧
    imageRewrite ['u'] c1ExText
      ≠ simReplaceExact c1ExText 0 (imageMatches ['u'] c1ExText) := by
  have hm : imageMatches ['u'] c1ExText = [⟨0, 46, [45, 38, 26]⟩] := by
    simp [c1ExText, imageMatches, finditer, scanIter, matchAt, imagePat,
      seqP, litP, clsP, strP, urlP, markP, lazyStarP, lazyPlusP, greedyPlusP, starStates,
      isDotChar, isWordChar, isNotSlash]
  have h1 : imageRewrite ['u'] c1ExText = "![](pic.png)!".toList := by
    rw [imageRewrite, hm]
    decide
  have h2 : simReplaceExact c1ExText 0 (imageMatches ['u'] c1ExText)
      = "![](pic.png)Z!".toList := by
    rw [hm]
    decide
  refine ⟨h1, h2, ?_⟩
  rw [h1, h2]
  decide

/-- Witness for the amended C1 on a concrete page with two image
references (on separate lines), each followed by a further character. -/
theorem c1_image_rewrite_simultaneous_ext_witness :
    imageRewrite ['u'] c1TwoText = simReplaceExt c1TwoText 0 (imageMatches ['u'] c1TwoText) := by
  have hm : imageMatches ['u'] c1TwoText
      = [⟨0, 43, [42, 36, 24]⟩, ⟨45, 88, [87, 81, 69]⟩] := by
    simp [c1TwoText, imageMatches, finditer, scanIter, matchAt, imagePat,
      seqP, litP, clsP, strP, urlP, markP, lazyStarP, lazyPlusP, greedyPlusP, starStates,
      isDotChar, isWordChar, isNotSlash]
  exact c1_image_rewrite_simultaneous_ext ['u'] c1TwoText (by rw [hm]; decide)

/-! ### C2: the context snippet before an internal-link match -/

lemma snippetOf_of_ge (t : Text) (m : RMatch) (h60 : 60 ≤ m.start)
    (hs : m.start ≤ t.length) :
    snippetOf t m = extractT t (m.start - 60) m.start := by
  have hA : (if ((m.start : Int) - 60) < 0
      then (((m.start : Int) - 60) + t.length).toNat
      else min ((m.start : Int) - 60).toNat t.length) = m.start - 60 := by
    rw [if_neg (by omega)]
    omega
  have hB : (if ((m.start : Int) : Int) < 0
      then (((m.start : Int) : Int) + t.length).toNat
      else min ((m.start : Int) : Int).toNat t.length) = m.start := by
    rw [if_neg (by omega)]
    omega
  simp only [snippetOf, pySlice]
  rw [hA, hB]

/-- A page text whose single internal-link match starts at offset 4 and
whose length exceeds 60. -/
def c2ShortText : Text :=
  "abc u/books/b/page/p)".toList ++ List.replicate 46 'x'

/-- A page text whose single internal-link match starts at offset 60. -/
def c2FarText : Text :=
  List.replicate 60 'x' ++ "u/books/b/page/p)".toList

/-- Counterexample to C2 as stated: for a match whose start offset is 4
(less than 60) in a text longer than 60 characters, the emitted context is
empty — the Python slice `md[start - 60 : start]` wraps around — rather
than the four characters preceding the match. -/
theorem c2_counterexample :
    detectorNotices ['u'] c2ShortText = [⟨['b'], ['p'], []⟩] ∧
    (pySplitlines (extractT c2ShortText 0 4)).map (fun l => "    ".toList ++ l)
      = ["    abc ".toList] ∧
    ([] : List (List Char)) ≠ ["    abc ".toList] := by
  have hm : finditer (internalPat ['u']) c2ShortText = [⟨4, 21, [20, 19, 13, 12]⟩] := by
    simp [c2ShortText, finditer, scanIter, matchAt, internalPat,
      seqP, litP, clsP, strP, urlP, markP, lazyStarP, lazyPlusP, greedyPlusP, starStates,
      isDotChar, isWordChar, isNotSlash, List.replicate]
  refine ⟨?_, by decide, by decide⟩
  rw [detectorNotices, hm]
  decide

/-- C2 (amended): only for a match whose start offset is at least 60 is
the emitted context exactly the 60 characters of text immediately
preceding the match start, split into lines and indented; for earlier
matches the Python negative slice yields a different (generally empty)
snippet. -/
theorem c2_context_far_matches (b : List Char) (t : Text) (m : RMatch)
    (_hm : m ∈ finditer (internalPat b) t)
    (h60 : 60 ≤ m.start) (hs : m.start ≤ t.length) :
    contextLinesOf t m
      = (pySplitlines (extractT t (m.start - 60) m.start)).map
          (fun l => "    ".toList ++ l) := by
  rw [contextLinesOf, snippetOf_of_ge t m h60 hs]

/-- Witness for the amended C2 at a concrete text whose match starts at
offset 60. -/
theorem c2_context_far_matches_witness :
    contextLinesOf c2FarText ⟨60, 77, [76, 75, 69, 68]⟩
      = (pySplitlines (extractT c2FarText 0 60)).map
          (fun l => "    ".toList ++ l) := by
  have hm : finditer (internalPat ['u']) c2FarText = [⟨60, 77, [76, 75, 69, 68]⟩] := by
    simp [c2FarText, finditer, scanIter, matchAt, internalPat,
      seqP, litP, clsP, strP, urlP, markP, lazyStarP, lazyPlusP, greedyPlusP, starStates,
      isDotChar, isWordChar, isNotSlash, List.replicate]
  exact c2_context_far_matches ['u'] c2FarText ⟨60, 77, [76, 75, 69, 68]⟩
    (by rw [hm]; exact List.mem_singleton.mpr rfl) (by decide) (by decide)

/-! ### C3: the synthesized title heading -/

/-- Scenario record: title `Intro`, markdown `## Hello`, not a draft. -/
def c3Doc : PageDetails :=
  ⟨"S".toList, "B".toList, "Intro".toList, "## Hello".toList, false⟩

/-- Counterexample to C3 as stated: the exported content of `c3Doc` is
`# Intro\n\n# Hello` — the normalizer raised the page's own `## Hello` to
level 1 — so a line other than the synthesized title is also a level-1
heading. -/
theorem c3_counterexample :
    exportContent ['u'] c3Doc = "# Intro\n\n# Hello".toList ∧
    ((splitLines (exportContent ['u'] c3Doc)).filter (matchesHeader 1)).length = 2 := by
  have h : exportContent ['u'] c3Doc = "# Intro\n\n# Hello".toList := by decide
  refine ⟨h, ?_⟩
  rw [h]
  decide

lemma newline_not_mem_titleLine (d : PageDetails) (h : '\n' ∉ d.page_title) :
    '\n' ∉ "# ".toList ++ (if d.draft then "DRAFT: ".toList else []) ++ d.page_title := by
  intro hmem
  rcases List.mem_append.mp hmem with h1 | h1
  · rcases List.mem_append.mp h1 with h2 | h2
    · exact absurd h2 (by decide)
    · rcases hd : d.draft <;> rw [hd] at h2
      · exact absurd h2 (by decide)
      · exact absurd h2 (by decide)
  · exact h h1

/-- C3 (amended): every exported page's content begins with the
synthesized title heading — its first line is `# ` + optional `DRAFT: ` +
title, a level-1 heading, followed by a blank line — but later lines may
also be level-1 headings (the normalizer shifts the page's top heading to
level 1), so the title heading need not be the only one. -/
theorem c3_first_line_title_heading (b : List Char) (d : PageDetails)
    (h : '\n' ∉ d.page_title) :
    (splitLines (exportContent b d)).head?
      = some ("# ".toList ++ (if d.draft then "DRAFT: ".toList else []) ++ d.page_title) ∧
    matchesHeader 1
      ("# ".toList ++ (if d.draft then "DRAFT: ".toList else []) ++ d.page_title) = true ∧
    (splitLines (exportContent b d)).get? 1 = some [] := by
  have hnl := newline_not_mem_titleLine d h
  have hsplit : splitLines (exportContent b d)
      = ("# ".toList ++ (if d.draft then "DRAFT: ".toList else []) ++ d.page_title)
        :: [] :: splitLines (normalizeText (imageRewrite b d.page_markdown)) := by
    have hform : exportContent b d
        = ("# ".toList ++ (if d.draft then "DRAFT: ".toList else []) ++ d.page_title)
          ++ '\n' :: ('\n' :: normalizeText (imageRewrite b d.page_markdown)) := by
      rw [exportContent, titleHeading]
      simp [List.append_assoc]
    rw [hform, splitLines_append_cons _ _ hnl, splitLines]
    rw [if_pos rfl]
  refine ⟨?_, ?_, ?_⟩
  · rw [hsplit]
    rfl
  · apply (matchesHeader_iff_decomp 1 _).mpr
    refine ⟨(if d.draft then "DRAFT: ".toList else []) ++ d.page_title, ?_⟩
    rw [show ("# ".toList : Text)
        = List.replicate 1 '#' ++ [' '] from rfl]
    rw [List.append_assoc, List.append_assoc, List.singleton_append]
  · rw [hsplit]
    rfl

/-- Witness for the amended C3 at a concrete draft record. -/
theorem c3_first_line_title_heading_witness :
    (splitLines (exportContent ['u']
        ⟨"S".toList, "B".toList, "Intro".toList, "## Hello".toList, true⟩)).head?
      = some ("# ".toList
          ++ (if (⟨"S".toList, "B".toList, "Intro".toList, "## Hello".toList,
                true⟩ : PageDetails).draft then "DRAFT: ".toList else [])
          ++ "Intro".toList) :=
  (c3_first_line_title_heading ['u']
    ⟨"S".toList, "B".toList, "Intro".toList, "## Hello".toList, true⟩ (by decide)).1

/-! ### C8: a failed image download aborts the export -/

lemma imageLoop_error_of_mem (download : Text → Except Unit Text) (dir : PathM)
    (t0 : Text) :
    ∀ (ms : List RMatch) (cur : Text),
      (∃ m ∈ ms, download (imageUrlOf t0 m) = .error ()) →
      (imageLoop download dir t0 ms cur).2 = .error () := by
  intro ms
  induction ms with
  | nil =>
    intro cur h
    simp at h
  | cons m rest ih =>
    intro cur h
    rw [imageLoop]
    rcases hdl : download (imageUrlOf t0 m) with e | bytes
    · cases e
      rfl
    · rcases h with ⟨m2, hm2, hfail⟩
      rcases List.mem_cons.mp hm2 with h1 | h1
      · subst h1
        rw [hdl] at hfail
        exact Except.noConfusion hfail
      · exact ih (spliceOne t0 cur m) ⟨m2, h1, hfail⟩

lemma imageLoop_writes_are_images (download : Text → Except Unit Text) (dir : PathM)
    (t0 : Text) :
    ∀ (ms : List RMatch) (cur : Text) (w : FileWrite),
      w ∈ (imageLoop download dir t0 ms cur).1 →
      ∃ p c, w = .image p c := by
  intro ms
  induction ms with
  | nil =>
    intro cur w hw
    simp [imageLoop] at hw
  | cons m rest ih =>
    intro cur w hw
    rw [imageLoop] at hw
    rcases hdl : download (imageUrlOf t0 m) with e | bytes <;> rw [hdl] at hw
    · simp at hw
    · rcases List.mem_cons.mp hw with h1 | h1
      · exact ⟨_, _, h1⟩
      · exact ih (spliceOne t0 cur m) w h1

lemma exportDoc_error_of_failed_download (b : List Char)
    (download : Text → Except Unit Text) (ep : Text) (d : PageDetails)
    (hfail : ∃ m ∈ imageMatches b d.page_markdown,
        download (imageUrlOf d.page_markdown m) = .error ()) :
    (exportDoc b download ep d).2 = .error () ∧
    ∀ w ∈ (exportDoc b download ep d).1, ∃ p c, w = .image p c := by
  have hrev : ∃ m ∈ (imageMatches b d.page_markdown).reverse,
      download (imageUrlOf d.page_markdown m) = .error () := by
    rcases hfail with ⟨m, hm, hf⟩
    exact ⟨m, List.mem_reverse.mpr hm, hf⟩
  have herr := imageLoop_error_of_mem download (pathToBook ep d) d.page_markdown
    ((imageMatches b d.page_markdown).reverse) d.page_markdown hrev
  rw [exportDoc]
  rcases hloop : imageLoop download (pathToBook ep d) d.page_markdown
      ((imageMatches b d.page_markdown).reverse) d.page_markdown with ⟨ws, res⟩
  rw [hloop] at herr
  rcases res with e | t1
  · cases e
    refine ⟨rfl, ?_⟩
    intro w hw
    apply imageLoop_writes_are_images download (pathToBook ep d) d.page_markdown
      ((imageMatches b d.page_markdown).reverse) d.page_markdown w
    rw [hloop]
    exact hw
  · exact absurd herr (by intro hcon; exact Except.noConfusion hcon)

lemma exportRun_prefix_error (b : List Char) (download : Text → Except Unit Text)
    (ep : Text) :
    ∀ (pre rest : List PageDetails),
      (∀ x ∈ pre, (exportDoc b download ep x).2 ≠ .error ()) →
      (exportRun b download ep rest).2 = .error () →
      exportRun b download ep (pre ++ rest)
        = (pre.flatMap (fun x => (exportDoc b download ep x).1)
            ++ (exportRun b download ep rest).1, .error ()) := by
  intro pre
  induction pre with
  | nil =>
    intro rest hpre herr
    rw [List.nil_append, List.flatMap_nil, List.nil_append]
    rcases hr : exportRun b download ep rest with ⟨ws, res⟩
    rw [hr] at herr
    simp only at herr
    rw [herr]
  | cons x pre2 ih =>
    intro rest hpre herr
    have hx := hpre x (List.mem_cons_self x pre2)
    rw [List.cons_append, exportRun]
    rcases hd : exportDoc b download ep x with ⟨wsx, resx⟩
    rcases resx with e | flag
    · cases e
      rw [hd] at hx
      exact absurd rfl hx
    · have hih := ih rest (fun y hy => hpre y (List.mem_cons_of_mem x hy)) herr
      rw [hih]
      simp only [List.flatMap_cons, List.append_assoc, hd]

/-- C8: if any image download of a page returns a failure, the whole
export aborts: `export_doc` propagates the error, every write it did
perform is an image file (the page's Markdown file is never written), and
the run stops with the error after the pages before it, so no remaining
page is processed or written. -/
theorem c8_download_failure_aborts (b : List Char)
    (download : Text → Except Unit Text) (ep : Text)
    (pre : List PageDetails) (d : PageDetails) (post : List PageDetails)
    (hpre : ∀ x ∈ pre, (exportDoc b download ep x).2 ≠ .error ())
    (hfail : ∃ m ∈ imageMatches b d.page_markdown,
        download (imageUrlOf d.page_markdown m) = .error ()) :
    (exportDoc b download ep d).2 = .error () ∧
    (∀ w ∈ (exportDoc b download ep d).1, ∃ p c, w = .image p c) ∧
    exportRun b download ep (pre ++ d :: post)
      = (pre.flatMap (fun x => (exportDoc b download ep x).1)
          ++ (exportDoc b download ep d).1, .error ()) := by
  obtain ⟨herr, himg⟩ := exportDoc_error_of_failed_download b download ep d hfail
  have hbase : exportRun b download ep (d :: post)
      = ((exportDoc b download ep d).1, .error ()) := by
    rw [exportRun]
    rcases hd : exportDoc b download ep d with ⟨ws, res⟩
    rw [hd] at herr
    simp only at herr
    rw [herr]
  have hrun := exportRun_prefix_error b download ep pre (d :: post) hpre
    (by rw [hbase])
  rw [hbase] at hrun
  exact ⟨herr, himg, hrun⟩

/-- A download stub that fails on every URL. -/
def c8Download : Text → Except Unit Text := fun _ => .error ()

/-- A page whose markdown holds one image reference. -/
def c8Doc : PageDetails :=
  ⟨"S".toList, "B".toList, "P".toList,
    "[![a](u/uploads/a.png)](u/uploads/x/p.png)".toList, false⟩

/-- A second, image-free page that follows the failing one. -/
def c8DocNext : PageDetails :=
  ⟨"S".toList, "B".toList, "Q".toList, "hello".toList, false⟩

/-- Witness for C8: with every download failing, the one-image page
aborts the run and only its image write precedes the error; the page
after it contributes nothing. -/
theorem c8_download_failure_aborts_witness :
    (exportDoc ['u'] c8Download "out".toList c8Doc).2 = .error () ∧
    exportRun ['u'] c8Download "out".toList ([] ++ c8Doc :: [c8DocNext])
      = (([] : List PageDetails).flatMap
            (fun x => (exportDoc ['u'] c8Download "out".toList x).1)
          ++ (exportDoc ['u'] c8Download "out".toList c8Doc).1, .error ()) := by
  have hm : imageMatches ['u'] c8Doc.page_markdown = [⟨0, 42, [41, 36, 24]⟩] := by
    simp [c8Doc, imageMatches, finditer, scanIter, matchAt, imagePat,
      seqP, litP, clsP, strP, urlP, markP, lazyStarP, lazyPlusP, greedyPlusP, starStates,
      isDotChar, isWordChar, isNotSlash]
  have h := c8_download_failure_aborts ['u'] c8Download "out".toList [] c8Doc [c8DocNext]
    (by intro x hx; exact absurd hx (List.not_mem_nil x))
    ⟨⟨0, 42, [41, 36, 24]⟩, by rw [hm]; exact List.mem_singleton.mpr rfl, rfl⟩
  exact ⟨h.1, h.2.2⟩

/-! ### C10: base-URL metacharacters act as regex operators -/

/-- `p` can consume exactly `pre` from any state, leaving any suffix. -/
def AcceptsP (p : Pat) (pre : Text) : Prop :=
  ∀ (pos : Nat) (suf : Text) (ms : List Nat),
    ∃ pos2 ms2, (pos2, suf, ms2) ∈ p (pos, pre ++ suf, ms)

lemma acceptsP_lit (c : Char) : AcceptsP (litP c) [c] := by
  intro pos suf ms
  exact ⟨pos + 1, ms, by simp [litP]⟩

lemma acceptsP_cls (f : Char → Bool) (c : Char) (h : f c = true) :
    AcceptsP (clsP f) [c] := by
  intro pos suf ms
  exact ⟨pos + 1, ms, by simp [clsP, h]⟩

lemma acceptsP_seq (p q : Pat) (u v : Text)
    (hp : AcceptsP p u) (hq : AcceptsP q v) : AcceptsP (seqP p q) (u ++ v) := by
  intro pos suf ms
  rcases hp pos (v ++ suf) ms with ⟨pos2, ms2, hmem2⟩
  rcases hq pos2 suf ms2 with ⟨pos3, ms3, hmem3⟩
  refine ⟨pos3, ms3, ?_⟩
  rw [seqP, List.append_assoc]
  exact List.mem_flatMap.mpr ⟨(pos2, v ++ suf, ms2), hmem2, hmem3⟩

lemma acceptsP_mark : AcceptsP markP [] := by
  intro pos suf ms
  exact ⟨pos, pos :: ms, by simp [markP]⟩

lemma acceptsP_str (s : Text) : AcceptsP (strP s) s := by
  induction s with
  | nil =>
    intro pos suf ms
    exact ⟨pos, ms, by simp [strP]⟩
  | cons c r ih =>
    exact acceptsP_seq (litP c) (strP r) [c] r (acceptsP_lit c) ih

lemma starStates_self (f : Char → Bool) (pos : Nat) (suf : Text) (ms : List Nat) :
    (pos, suf, ms) ∈ starStates f pos suf ms := by
  cases suf <;> simp [starStates]

lemma acceptsP_lazyPlus (f : Char → Bool) (c : Char) (h : f c = true) :
    AcceptsP (lazyPlusP f) [c] := by
  intro pos suf ms
  refine ⟨pos + 1, ms, ?_⟩
  show (pos + 1, suf, ms) ∈ lazyPlusP f (pos, c :: suf, ms)
  simp only [lazyPlusP]
  rw [if_pos h]
  exact starStates_self f (pos + 1) suf ms

/-- A character that is not a dot, standing in for whatever the dot
metacharacter matched. -/
def dotToA (c : Char) : Char := if c = '.' then 'A' else c

lemma acceptsP_url (bs : List Char) : AcceptsP (urlP bs) (bs.map dotToA) := by
  induction bs with
  | nil =>
    intro pos suf ms
    exact ⟨pos, ms, by simp [urlP]⟩
  | cons c r ih =>
    have hatom : AcceptsP (if c = '.' then clsP isDotChar else litP c) [dotToA c] := by
      by_cases hc : c = '.'
      · rw [if_pos hc, show dotToA c = 'A' by rw [dotToA, if_pos hc]]
        exact acceptsP_cls isDotChar 'A' (by decide)
      · rw [if_neg hc, show dotToA c = c by rw [dotToA, if_neg hc]]
        exact acceptsP_lit c
    exact acceptsP_seq _ (urlP r) [dotToA c] (r.map dotToA) hatom ih

/-- Regex metacharacters of Python's `re` syntax. -/
def isRegexMeta (c : Char) : Bool :=
  ['.', '^', '$', '*', '+', '?', '(', ')', '[', ']', '|', '\\',
    Char.ofNat 123, Char.ofNat 125].contains c

/-- A text built from the base URL with every `.` replaced by `A`,
followed by a link tail; it never contains the base URL literally when
the base URL has a dot, yet the compiled pattern matches it. -/
def c10Text (bs : List Char) : Text :=
  bs.map dotToA ++ "/books/b/page/p)".toList

/-- C10: the matchers substitute the base URL into the pattern without
escaping, so its `.` characters act as the any-character metacharacter:
for every base URL that contains a `.` (and otherwise only regex-literal
characters, the domain this embedding models), the text `c10Text` —
which does not contain the base URL as a literal substring — is
nevertheless matched by the compiled internal-link pattern. -/
theorem c10_base_url_dot_wildcard (bs : List Char)
    (hdot : '.' ∈ bs)
    (_hlit : ∀ c ∈ bs, c = '.' ∨ isRegexMeta c = false) :
    (detectInternalLinks bs (c10Text bs)).1 = true ∧
    ¬ bs <:+: c10Text bs := by
  constructor
  · rw [detect_true_iff]
    refine ⟨0, Nat.zero_le _, ?_⟩
    have htail : ("/books/".toList
        ++ ([] ++ (['b'] ++ ([] ++ ("/page/".toList
          ++ ([] ++ (['p'] ++ ([] ++ [')']))))))) : Text)
        = "/books/b/page/p)".toList := by decide
    have hacc : AcceptsP (internalPat bs)
        (bs.map dotToA ++ ("/books/".toList
          ++ ([] ++ (['b'] ++ ([] ++ ("/page/".toList
            ++ ([] ++ (['p'] ++ ([] ++ [')']))))))))) := by
      refine acceptsP_seq _ _ _ _ (acceptsP_url bs) ?_
      refine acceptsP_seq _ _ _ _ (acceptsP_str _) ?_
      refine acceptsP_seq _ _ _ _ acceptsP_mark ?_
      refine acceptsP_seq _ _ _ _ (acceptsP_lazyPlus isDotChar 'b' (by decide)) ?_
      refine acceptsP_seq _ _ _ _ acceptsP_mark ?_
      refine acceptsP_seq _ _ _ _ (acceptsP_str _) ?_
      refine acceptsP_seq _ _ _ _ acceptsP_mark ?_
      refine acceptsP_seq _ _ _ _ (acceptsP_lazyPlus isDotChar 'p' (by decide)) ?_
      exact acceptsP_seq _ _ _ _ acceptsP_mark (acceptsP_lit ')')
    rw [htail] at hacc
    rcases hacc 0 [] [] with ⟨pos2, ms2, hmem⟩
    rw [List.append_nil] at hmem
    rw [matchAt, List.drop_zero]
    intro hcon
    rw [List.head?_eq_none_iff] at hcon
    rw [show (c10Text bs : Text) = bs.map dotToA ++ "/books/b/page/p)".toList from rfl]
      at hcon
    rw [hcon] at hmem
    exact List.not_mem_nil _ hmem
  · intro hinf
    have hdm : '.' ∈ c10Text bs := hinf.subset hdot
    rw [c10Text] at hdm
    rcases List.mem_append.mp hdm with h1 | h1
    · rcases List.mem_map.mp h1 with ⟨a, _, hda⟩
      rw [dotToA] at hda
      by_cases hc : a = '.'
      · rw [if_pos hc] at hda
        exact absurd hda (by decide)
      · rw [if_neg hc] at hda
        exact hc hda
    · exact absurd h1 (by decide)

/-- Witness for C10 at the concrete base URL `a.b`. -/
theorem c10_base_url_dot_wildcard_witness :
    (detectInternalLinks "a.b".toList (c10Text "a.b".toList)).1 = true ∧
    ¬ ("a.b".toList : Text) <:+: c10Text "a.b".toList :=
  c10_base_url_dot_wildcard "a.b".toList (by decide) (by decide)
